import Mathlib

/-! Shallow embedding of the `revm-inspectors` tracing core:
the four-byte selector tally (`src/tracing/fourbyte.rs`) and the
trace formatting utilities (`src/tracing/utils.rs`).

Bytes are modelled as `Nat` values (< 256 where it matters); byte
buffers as `List Nat`; the selector histogram (a `HashMap` keyed by
`(Selector, usize)` in the source) as an association list with unique
keys; a Rust panic as the `none` case of an `Option`-valued result.
-/

namespace RevmInspectors

/-- A selector key of the histogram: the 4 selector bytes paired with the
calldata size, embedding the Rust key type `(Selector, usize)`. -/
abbrev SelKey := List Nat × Nat

/-- The selector histogram, embedding `HashMap<(Selector, usize), u64>` as an
association list from keys to counts.  The `HashMap` invariant that keys are
unique is carried separately as `List.Nodup` hypotheses. -/
abbrev Histogram := List (SelKey × Nat)

/-- Lookup of a key's count in the histogram (embedding `HashMap::get`). -/
def histLookup (h : Histogram) (k : SelKey) : Option Nat :=
  match h with
  | [] => none
  | (k', c) :: rest => if k' = k then some c else histLookup rest k

/-- Embedding of `*self.inner.entry(k).or_default() += 1`: if the key is
present its count is bumped by one, otherwise a zero-initialized entry is
inserted first and then bumped to one. -/
def incrementEntry (h : Histogram) (k : SelKey) : Histogram :=
  match h with
  | [] => [(k, 0 + 1)]
  | (k', c) :: rest =>
      if k' = k then (k', c + 1) :: rest else (k', c) :: incrementEntry rest k

/-- Embedding of revm's `CallInput`: either a range into the shared execution
buffer (carried here together with the engine-side resolution
`shared_memory_buffer_slice`, which may fail) or an owned byte buffer. -/
inductive CallInput where
  | sharedBuffer (rangeLen : Nat) (resolved : Option (List Nat))
  | bytes (data : List Nat)
deriving DecidableEq, Repr

/-- Embedding of `CallInput::len`: the range length for a shared-buffer
input, the buffer length for an owned input. -/
def CallInput.len : CallInput → Nat
  | .sharedBuffer rangeLen _ => rangeLen
  | .bytes data => data.length

/-- Well-formedness invariant provided by the engine: when a shared-buffer
range does resolve, the resolved slice has exactly the range's length. -/
def CallInput.wf : CallInput → Prop
  | .sharedBuffer rangeLen (some s) => s.length = rangeLen
  | _ => True

instance : DecidablePred CallInput.wf := by
  intro i
  cases i with
  | sharedBuffer n r => cases r <;> simp [CallInput.wf] <;> infer_instance
  | bytes d => simp [CallInput.wf]; infer_instance

/-- Opaque stand-in for revm's `CallOutcome`; the inspector only ever
produces the absent (`None`) override, so no structure is needed. -/
def CallOutcome := Unit

/-- Embedding of `FourByteInspector::call`.  The outer `Option` models
panic-freedom: `none` is a Rust panic.  Faithful to the source: the guard
uses `inputs.input.len()`, an unresolvable shared buffer falls back to the
empty slice, and then `&input_bytes[..4]` is taken — which panics when
`input_bytes` has fewer than 4 bytes. -/
def onCall (hist : Histogram) (input : CallInput) :
    Option (Histogram × Option CallOutcome) :=
  if 4 ≤ input.len then
    let input_bytes :=
      match input with
      | .sharedBuffer _ resolved =>
          match resolved with
          | some slice => slice
          | none => []
      | .bytes b => b
    if 4 ≤ input_bytes.length then
      let selector := input_bytes.take 4
      let calldata_size := (input_bytes.drop 4).length
      some (incrementEntry hist (selector, calldata_size), none)
    else
      none
  else
    some (hist, none)

/-- Feeding a finite sequence of call events to a tally, propagating a
panic (`none`) from any single event. -/
def processCalls (hist : Histogram) : List CallInput → Option Histogram
  | [] => some hist
  | e :: rest =>
      match onCall hist e with
      | none => none
      | some (h', _) => processCalls h' rest

/-- Sum of all counts stored in a histogram. -/
def sumCounts (h : Histogram) : Nat := (h.map (·.2)).sum

/-- Embedding of `hex::encode` on a byte buffer: each byte becomes two
lowercase hex characters, high nibble first.  `Nat.digitChar` renders
0–15 as '0'–'9', 'a'–'f'. -/
def hexEncode : List Nat → List Char
  | [] => []
  | b :: rest => Nat.digitChar (b / 16) :: Nat.digitChar (b % 16) :: hexEncode rest

/-- Embedding of decimal formatting (`format!("\x7b\x7d", n)` on a `usize`):
most-significant digit first, with `0` rendered as `"0"`. -/
def decimalChars (n : Nat) : List Char :=
  if n = 0 then ['0'] else (Nat.digits 10 n).reverse.map Nat.digitChar

/-- Embedding of the report key `format!("0x\x7b\x7d-\x7b\x7d", hex::encode(selector),
calldata_size)` from `From<&FourByteInspector> for FourByteFrame`. -/
def keyChars (k : SelKey) : List Char :=
  '0' :: 'x' :: (hexEncode k.1 ++ '-' :: decimalChars k.2)

/-- The four-byte frame (`FourByteFrame`): an association list from textual
keys to counts. -/
abbrev Frame := List (List Char × Nat)

/-- Embedding of `From<&FourByteInspector> for FourByteFrame`: every
histogram entry is mapped to its formatted key with the identical count. -/
def toFrame (h : Histogram) : Frame :=
  h.map (fun e => (keyChars e.1, e.2))

/-- Lookup of a key's count in a frame. -/
def frameLookup (f : Frame) (s : List Char) : Option Nat :=
  match f with
  | [] => none
  | (s', c) :: rest => if s' = s then some c else frameLookup rest s

/-- Sum of all counts stored in a frame. -/
def frameSum (f : Frame) : Nat := (f.map (·.2)).sum

/-- Well-formedness of a histogram key, guaranteed by the Rust types: the
selector is exactly 4 bytes, each a `u8`. -/
def SelKeyWF (k : SelKey) : Prop :=
  k.1.length = 4 ∧ ∀ b ∈ k.1, b < 256

instance : DecidablePred SelKeyWF := fun k => by
  unfold SelKeyWF; infer_instance

/-- Embedding of revm's `InstructionResult` enum (the execution outcome code
consumed by `fmt_error_msg`). -/
inductive InstructionResult where
  | Continue | Stop | Return | SelfDestruct | ReturnContract
  | Revert | CallTooDeep | OutOfFunds | CreateInitCodeStartingEF00
  | InvalidEOFInitCode | InvalidExtDelegateCallTarget
  | CallOrCreate
  | OutOfGas | MemoryOOG | MemoryLimitOOG | PrecompileOOG | InvalidOperandOOG
  | ReentrancySentryOOG | OpcodeNotFound | CallNotAllowedInsideStatic
  | StateChangeDuringStaticCall | InvalidFEOpcode | InvalidJump | NotActivated
  | StackUnderflow | StackOverflow | OutOfOffset | CreateCollision
  | OverflowPayment | PrecompileError | NonceOverflow | CreateContractSizeLimit
  | CreateContractStartingWithEF | CreateInitCodeSizeLimit | FatalExternalError
  | ReturnContractInNotInitEOF | EOFOpcodeDisabledInLegacy
  | SubRoutineStackOverflow | SubRoutineStackUnderflow
  | InvalidJumpWhileSubRoutine | EofAuxDataOverflow | EofAuxDataTooSmall
  | InvalidEXTCALLTarget
deriving DecidableEq, Repr

namespace InstructionResult

/-- Embedding of `InstructionResult::is_ok`: true exactly for the success
codes (`return_ok!`: Continue, Stop, Return, SelfDestruct, ReturnContract). -/
def is_ok : InstructionResult → Bool
  | .Continue | .Stop | .Return | .SelfDestruct | .ReturnContract => true
  | _ => false

/-- Embedding of the derived `Debug` rendering of an `InstructionResult`
value (`format!("\x7bstatus:?\x7d")`): the bare variant name. -/
def debugStr : InstructionResult → String
  | .Continue => "Continue"
  | .Stop => "Stop"
  | .Return => "Return"
  | .SelfDestruct => "SelfDestruct"
  | .ReturnContract => "ReturnContract"
  | .Revert => "Revert"
  | .CallTooDeep => "CallTooDeep"
  | .OutOfFunds => "OutOfFunds"
  | .CreateInitCodeStartingEF00 => "CreateInitCodeStartingEF00"
  | .InvalidEOFInitCode => "InvalidEOFInitCode"
  | .InvalidExtDelegateCallTarget => "InvalidExtDelegateCallTarget"
  | .CallOrCreate => "CallOrCreate"
  | .OutOfGas => "OutOfGas"
  | .MemoryOOG => "MemoryOOG"
  | .MemoryLimitOOG => "MemoryLimitOOG"
  | .PrecompileOOG => "PrecompileOOG"
  | .InvalidOperandOOG => "InvalidOperandOOG"
  | .ReentrancySentryOOG => "ReentrancySentryOOG"
  | .OpcodeNotFound => "OpcodeNotFound"
  | .CallNotAllowedInsideStatic => "CallNotAllowedInsideStatic"
  | .StateChangeDuringStaticCall => "StateChangeDuringStaticCall"
  | .InvalidFEOpcode => "InvalidFEOpcode"
  | .InvalidJump => "InvalidJump"
  | .NotActivated => "NotActivated"
  | .StackUnderflow => "StackUnderflow"
  | .StackOverflow => "StackOverflow"
  | .OutOfOffset => "OutOfOffset"
  | .CreateCollision => "CreateCollision"
  | .OverflowPayment => "OverflowPayment"
  | .PrecompileError => "PrecompileError"
  | .NonceOverflow => "NonceOverflow"
  | .CreateContractSizeLimit => "CreateContractSizeLimit"
  | .CreateContractStartingWithEF => "CreateContractStartingWithEF"
  | .CreateInitCodeSizeLimit => "CreateInitCodeSizeLimit"
  | .FatalExternalError => "FatalExternalError"
  | .ReturnContractInNotInitEOF => "ReturnContractInNotInitEOF"
  | .EOFOpcodeDisabledInLegacy => "EOFOpcodeDisabledInLegacy"
  | .SubRoutineStackOverflow => "SubRoutineStackOverflow"
  | .SubRoutineStackUnderflow => "SubRoutineStackUnderflow"
  | .InvalidJumpWhileSubRoutine => "InvalidJumpWhileSubRoutine"
  | .EofAuxDataOverflow => "EofAuxDataOverflow"
  | .EofAuxDataTooSmall => "EofAuxDataTooSmall"
  | .InvalidEXTCALLTarget => "InvalidEXTCALLTarget"

end InstructionResult

/-- Modelled from the spec: `TraceStyle`, "a two-valued mode selector
(parity-compatible vs geth-compatible)" declared in the repository's
`src/tracing/config.rs`, which is not among the provided sources. -/
inductive TraceStyle where
  | Parity
  | Geth
deriving DecidableEq, Repr

/-- Modelled from the spec: `TraceStyle::is_parity`, true exactly for the
parity-compatible style. -/
def TraceStyle.is_parity : TraceStyle → Bool
  | .Parity => true
  | .Geth => false

/-- Embedding of `fmt_error_msg` from `src/tracing/utils.rs`: `none` for a
success code, otherwise the fixed style-dependent string table with a
`Debug`-rendering fallback. -/
def fmt_error_msg (res : InstructionResult) (kind : TraceStyle) : Option String :=
  if res.is_ok then
    none
  else
    let msg : String :=
      match res with
      | .Revert =>
          if kind.is_parity then "Reverted" else "execution reverted"
      | .OutOfGas | .PrecompileOOG =>
          if kind.is_parity then "Out of gas" else "out of gas"
      | .OutOfFunds =>
          if kind.is_parity then "Insufficient balance for transfer"
          else "insufficient balance for transfer"
      | .MemoryOOG =>
          if kind.is_parity then "Out of gas" else "out of gas: out of memory"
      | .MemoryLimitOOG =>
          if kind.is_parity then "Out of gas" else "out of gas: reach memory limit"
      | .InvalidOperandOOG =>
          if kind.is_parity then "Out of gas" else "out of gas: invalid operand"
      | .OpcodeNotFound =>
          if kind.is_parity then "Bad instruction" else "invalid opcode"
      | .StackOverflow => "Out of stack"
      | .InvalidJump =>
          if kind.is_parity then "Bad jump destination" else "invalid jump destination"
      | .PrecompileError =>
          if kind.is_parity then "Built-in failed" else "precompiled failed"
      | .InvalidFEOpcode =>
          if kind.is_parity then "Bad instruction" else "invalid opcode: INVALID"
      | .ReentrancySentryOOG =>
          if kind.is_parity then "Out of gas"
          else "out of gas: not enough gas for reentrancy sentry"
      | status => status.debugStr
    some msg

/-- The outcome kinds named by the fixed table of `fmt_error_msg` (every
match arm other than the `status =>` fallback). -/
def inErrorTable (res : InstructionResult) : Bool :=
  match res with
  | .Revert | .OutOfGas | .PrecompileOOG | .OutOfFunds | .MemoryOOG
  | .MemoryLimitOOG | .InvalidOperandOOG | .OpcodeNotFound | .StackOverflow
  | .InvalidJump | .PrecompileError | .InvalidFEOpcode
  | .ReentrancySentryOOG => true
  | _ => false

/-- Embedding of `convert_memory` from `src/tracing/utils.rs`: each full
32-byte chunk is hex-encoded in order (`chunks_exact(32)`), and a nonempty
remainder is copied into a zeroed 32-byte array before encoding. -/
def convert_memory (data : List Nat) : List (List Char) :=
  if h : 32 ≤ data.length then
    hexEncode (data.take 32) :: convert_memory (data.drop 32)
  else if data.length = 0 then
    []
  else
    [hexEncode (data ++ List.replicate (32 - data.length) 0)]
termination_by data.length
decreasing_by
  simp only [List.length_drop]
  omega

/-- Embedding of revm's `SpecId` hardfork enum, with its discriminant
order. -/
inductive SpecId where
  | FRONTIER | FRONTIER_THAWING | HOMESTEAD | DAO_FORK | TANGERINE
  | SPURIOUS_DRAGON | BYZANTIUM | CONSTANTINOPLE | PETERSBURG | ISTANBUL
  | MUIR_GLACIER | BERLIN | LONDON | ARROW_GLACIER | GRAY_GLACIER | MERGE
  | SHANGHAI | CANCUN | PRAGUE | OSAKA
deriving DecidableEq, Repr

/-- The discriminant (`as u8`) of a `SpecId`. -/
def SpecId.toNat : SpecId → Nat
  | .FRONTIER => 0 | .FRONTIER_THAWING => 1 | .HOMESTEAD => 2 | .DAO_FORK => 3
  | .TANGERINE => 4 | .SPURIOUS_DRAGON => 5 | .BYZANTIUM => 6
  | .CONSTANTINOPLE => 7 | .PETERSBURG => 8 | .ISTANBUL => 9
  | .MUIR_GLACIER => 10 | .BERLIN => 11 | .LONDON => 12 | .ARROW_GLACIER => 13
  | .GRAY_GLACIER => 14 | .MERGE => 15 | .SHANGHAI => 16 | .CANCUN => 17
  | .PRAGUE => 18 | .OSAKA => 19

/-- Embedding of `SpecId::is_enabled_in(self, other)`:
`self as u8 >= other as u8`. -/
def SpecId.is_enabled_in (self other : SpecId) : Bool :=
  other.toNat ≤ self.toNat

/-- Embedding of `gas_used` from `src/tracing/utils.rs`.  Gas amounts are
`u64`; every operation here (division, `min`, checked-in-debug subtraction)
agrees with `Nat` arithmetic as long as no underflow occurs, which the
accompanying theorem establishes. -/
def gas_used (spec : SpecId) (spent refunded : Nat) : Nat :=
  let refund_quotient := if SpecId.is_enabled_in spec .LONDON then 5 else 2
  spent - min refunded (spent / refund_quotient)

/-- Embedding of revm's `Bytecode` as consumed here: only its
`original_bytes()` projection is used. -/
structure Bytecode where
  original_bytes : List Nat
deriving DecidableEq, Repr

/-- Embedding of revm's `AccountInfo` as consumed here: optional inline
bytecode and the code hash (32 bytes). -/
structure AccountInfo where
  code : Option Bytecode
  code_hash : List Nat
deriving DecidableEq, Repr

/-- The canonical Keccak-256 hash of empty code (`KECCAK_EMPTY`),
`0xc5d2460186f7233c927e7db2dcc703c0e500b653ca82273b7bfad8045d85a470`. -/
def KECCAK_EMPTY : List Nat :=
  [0xc5, 0xd2, 0x46, 0x01, 0x86, 0xf7, 0x23, 0x3c,
   0x92, 0x7e, 0x7d, 0xb2, 0xdc, 0xc7, 0x03, 0xc0,
   0xe5, 0x00, 0xb6, 0x53, 0xca, 0x82, 0x27, 0x3b,
   0x7b, 0xfa, 0xd8, 0x04, 0x5d, 0x85, 0xa4, 0x70]

/-- Embedding of `load_account_code` from `src/tracing/utils.rs`.  The
external data source (`DatabaseRef::code_by_hash_ref`) is a parameter
returning either the bytecode or an error value. -/
def load_account_code (code_by_hash : List Nat → Except String Bytecode)
    (db_acc : AccountInfo) : Option (List Nat) :=
  match db_acc.code.map (fun code => code.original_bytes) with
  | some b => some b
  | none =>
      if db_acc.code_hash = KECCAK_EMPTY then
        none
      else
        (code_by_hash db_acc.code_hash).toOption.map
          (fun code => code.original_bytes)

/-- Embedding of `alloy_sol_types::ContractError` as consumed by
`maybe_revert_reason`: the `Revert` shape carries the embedded reason
string; every other recognized contract-error shape is abstracted by its
rendered `Display` description (`err.to_string()`), the only thing the
source reads from it. -/
inductive ContractError where
  | Revert (reason : String)
  | otherError (display : String)
deriving DecidableEq, Repr

/-- The `to_string()` rendering of a contract error.  Alloy renders the
`Revert` shape as `revert: ` followed by the reason; the source never takes
that branch. -/
def ContractError.toText : ContractError → String
  | .Revert reason => "revert: " ++ reason
  | .otherError display => display

/-- Embedding of `alloy_sol_types::GenericRevertReason`: a structured
contract error or a raw (non-ABI) string payload. -/
inductive GenericRevertReason where
  | ContractError (err : ContractError)
  | RawString (s : String)
deriving DecidableEq, Repr

/-- Embedding of `maybe_revert_reason` from `src/tracing/utils.rs`.  The
external ABI decoder `GenericRevertReason::decode` is a parameter. -/
def maybe_revert_reason (decode : List Nat → Option GenericRevertReason)
    (output : List Nat) : Option String := do
  let decoded ← decode output
  let reason :=
    match decoded with
    | .ContractError err =>
        match err with
        | .Revert reason => reason
        | err => err.toText
    | .RawString err => err
  if reason.isEmpty then none else some reason

/-- The sixteen lowercase hex digit characters, as rendered by
`Nat.digitChar` on 0–15. -/
def lowerHexChars : List Char := (List.range 16).map Nat.digitChar

/-- A character is a lowercase hex digit. -/
def isLowerHexChar (c : Char) : Prop := c ∈ lowerHexChars

instance : DecidablePred isLowerHexChar := fun c => by
  unfold isLowerHexChar; infer_instance

/-- The nibble value of a lowercase hex digit character (standard hex
decoding, inverse of `Nat.digitChar` below 16): digits map from
code point 48, letters from code point 97 minus 10. -/
def charToNibble (c : Char) : Nat :=
  if 97 ≤ c.toNat then c.toNat - 87 else c.toNat - 48

/-- Standard hex decoding of a character sequence back into bytes,
two characters per byte (high nibble first). -/
def hexDecode : List Char → List Nat
  | c1 :: c2 :: rest => (charToNibble c1 * 16 + charToNibble c2) :: hexDecode rest
  | _ => []

/-- The chunk decomposition performed by `convert_memory` before hex
encoding: consecutive full 32-byte words, the trailing partial chunk
right-padded with zero bytes. -/
def padChunks (data : List Nat) : List (List Nat) :=
  if h : 32 ≤ data.length then
    data.take 32 :: padChunks (data.drop 32)
  else if data.length = 0 then
    []
  else
    [data ++ List.replicate (32 - data.length) 0]
termination_by data.length
decreasing_by
  simp only [List.length_drop]
  omega

/-! Histogram lemmas -/

theorem histLookup_incrementEntry_self (h : Histogram) (k : SelKey) :
    histLookup (incrementEntry h k) k = some ((histLookup h k).getD 0 + 1) := by
  induction h with
  | nil => simp [incrementEntry, histLookup]
  | cons e rest ih =>
      obtain ⟨k', c⟩ := e
      by_cases hk : k' = k
      · subst hk
        simp [incrementEntry, histLookup]
      · simp [incrementEntry, histLookup, hk, ih]

theorem histLookup_incrementEntry_other (h : Histogram) (k k' : SelKey)
    (hne : k' ≠ k) :
    histLookup (incrementEntry h k) k' = histLookup h k' := by
  induction h with
  | nil =>
      simp only [incrementEntry, histLookup]
      rw [if_neg fun hh => hne hh.symm]
  | cons e rest ih =>
      obtain ⟨k0, c⟩ := e
      simp only [incrementEntry]
      by_cases hk : k0 = k
      · rw [if_pos hk]
        simp only [histLookup]
        rw [if_neg fun hh => hne (hh.symm.trans hk),
          if_neg fun hh => hne (hh.symm.trans hk)]
      · rw [if_neg hk]
        simp only [histLookup, ih]

theorem sumCounts_incrementEntry (h : Histogram) (k : SelKey) :
    sumCounts (incrementEntry h k) = sumCounts h + 1 := by
  induction h with
  | nil => simp [incrementEntry, sumCounts]
  | cons e rest ih =>
      obtain ⟨k0, c⟩ := e
      by_cases hk : k0 = k
      · simp [incrementEntry, hk, sumCounts]
        omega
      · simp [incrementEntry, hk, sumCounts] at ih ⊢
        omega

theorem incrementEntry_keys (h : Histogram) (k : SelKey) :
    (incrementEntry h k).map (·.1) = h.map (·.1) ∨
      (incrementEntry h k).map (·.1) = h.map (·.1) ++ [k] := by
  induction h with
  | nil => right; simp [incrementEntry]
  | cons e rest ih =>
      obtain ⟨k0, c⟩ := e
      by_cases hk : k0 = k
      · left; simp [incrementEntry, hk]
      · rcases ih with ih | ih
        · left; simp [incrementEntry, hk, ih]
        · right; simp [incrementEntry, hk, ih]

/-! Hex encoding lemmas -/

theorem hexEncode_length (l : List Nat) : (hexEncode l).length = 2 * l.length := by
  induction l with
  | nil => simp [hexEncode]
  | cons b rest ih => simp [hexEncode, ih]; omega

theorem digitChar_lowerHex : ∀ n < 16, isLowerHexChar (Nat.digitChar n) := by decide

theorem hexEncode_chars (l : List Nat) (hb : ∀ b ∈ l, b < 256) :
    ∀ c ∈ hexEncode l, isLowerHexChar c := by
  induction l with
  | nil => simp [hexEncode]
  | cons b rest ih =>
      have hb0 : b < 256 := hb b (by simp)
      have h1 : b / 16 < 16 := by omega
      have h2 : b % 16 < 16 := by omega
      simp only [hexEncode, List.mem_cons]
      rintro c (rfl | rfl | hc)
      · exact digitChar_lowerHex _ h1
      · exact digitChar_lowerHex _ h2
      · exact ih (fun x hx => hb x (by simp [hx])) c hc

theorem charToNibble_digitChar : ∀ n < 16, charToNibble (Nat.digitChar n) = n := by
  decide

theorem hexDecode_hexEncode_append (l : List Nat) (r : List Char)
    (hb : ∀ b ∈ l, b < 256) :
    hexDecode (hexEncode l ++ r) = l ++ hexDecode r := by
  induction l with
  | nil => simp [hexEncode]
  | cons b rest ih =>
      have hb0 : b < 256 := hb b (by simp)
      have h1 : b / 16 < 16 := by omega
      have h2 : b % 16 < 16 := by omega
      simp only [hexEncode, List.cons_append, hexDecode, List.append_eq]
      rw [charToNibble_digitChar _ h1, charToNibble_digitChar _ h2,
        ih (fun x hx => hb x (by simp [hx]))]
      congr 1
      omega

theorem hexDecode_hexEncode (l : List Nat) (hb : ∀ b ∈ l, b < 256) :
    hexDecode (hexEncode l) = l := by
  have := hexDecode_hexEncode_append l [] hb
  simpa [hexDecode] using this

theorem hexEncode_inj {l1 l2 : List Nat} (h1 : ∀ b ∈ l1, b < 256)
    (h2 : ∀ b ∈ l2, b < 256) (h : hexEncode l1 = hexEncode l2) : l1 = l2 := by
  rw [← hexDecode_hexEncode l1 h1, ← hexDecode_hexEncode l2 h2, h]

/-! Decimal rendering lemmas -/

theorem digitChar_inj_lt : ∀ a < 16, ∀ b < 16,
    Nat.digitChar a = Nat.digitChar b → a = b := by decide

theorem map_digitChar_inj : ∀ l1 l2 : List Nat, (∀ x ∈ l1, x < 16) →
    (∀ x ∈ l2, x < 16) → l1.map Nat.digitChar = l2.map Nat.digitChar → l1 = l2 := by
  intro l1
  induction l1 with
  | nil => intro l2 _ _ h; cases l2 <;> simp_all
  | cons a rest ih =>
      intro l2 ha hb h
      cases l2 with
      | nil => simp at h
      | cons b rest2 =>
          simp only [List.map_cons, List.cons.injEq] at h
          have hab : a = b :=
            digitChar_inj_lt a (ha a (by simp)) b (hb b (by simp)) h.1
          have := ih rest2 (fun x hx => ha x (by simp [hx]))
            (fun x hx => hb x (by simp [hx])) h.2
          simp [hab, this]

theorem decimalChars_eq_zero_chars {n : Nat} (h : decimalChars n = ['0']) :
    n = 0 := by
  by_cases hn : n = 0
  · exact hn
  · exfalso
    rw [decimalChars, if_neg hn] at h
    have hlen : (Nat.digits 10 n).length = 1 := by
      have := congrArg List.length h
      simpa using this
    obtain ⟨d, hd⟩ := List.length_eq_one.mp hlen
    rw [hd] at h
    simp at h
    have hd10 : d < 10 :=
      Nat.digits_lt_base (b := 10) (m := n) (by norm_num) (by rw [hd]; simp)
    have hd0 : d = 0 :=
      digitChar_inj_lt d (by omega) 0 (by omega) (h.trans (by decide))
    have hn0 : n = Nat.ofDigits 10 [d] := by
      rw [← hd, Nat.ofDigits_digits]
    rw [hd0] at hn0
    simp [Nat.ofDigits] at hn0
    exact hn hn0

theorem decimalChars_inj {m n : Nat} (h : decimalChars m = decimalChars n) :
    m = n := by
  have h0 : decimalChars 0 = ['0'] := by simp [decimalChars]
  by_cases hm : m = 0 <;> by_cases hn : n = 0
  · omega
  · subst hm
    rw [h0] at h
    exact ((hn (decimalChars_eq_zero_chars h.symm)).elim)
  · subst hn
    rw [h0] at h
    exact ((hm (decimalChars_eq_zero_chars h)).elim)
  · simp only [decimalChars, if_neg hm, if_neg hn] at h
    have hrev : (Nat.digits 10 m).reverse = (Nat.digits 10 n).reverse := by
      apply map_digitChar_inj _ _ _ _ h
      · intro x hx
        have : x ∈ Nat.digits 10 m := by simpa using hx
        have := Nat.digits_lt_base (by norm_num) this
        omega
      · intro x hx
        have : x ∈ Nat.digits 10 n := by simpa using hx
        have := Nat.digits_lt_base (by norm_num) this
        omega
    have hdig : Nat.digits 10 m = Nat.digits 10 n :=
      List.reverse_injective hrev
    have := congrArg (Nat.ofDigits 10) hdig
    simpa [Nat.ofDigits_digits] using this

theorem keyChars_inj {k1 k2 : SelKey} (h1 : SelKeyWF k1) (h2 : SelKeyWF k2)
    (h : keyChars k1 = keyChars k2) : k1 = k2 := by
  obtain ⟨hl1, hb1⟩ := h1
  obtain ⟨hl2, hb2⟩ := h2
  simp only [keyChars, List.cons.injEq, true_and] at h
  have hlen : (hexEncode k1.1).length = (hexEncode k2.1).length := by
    rw [hexEncode_length, hexEncode_length, hl1, hl2]
  obtain ⟨hhex, htail⟩ := List.append_inj h hlen
  have hsel : k1.1 = k2.1 := hexEncode_inj hb1 hb2 hhex
  simp only [List.cons.injEq, true_and] at htail
  have hsize : k1.2 = k2.2 := decimalChars_inj htail
  exact Prod.ext hsel hsize

/-! Memory chunking lemmas -/

theorem convert_memory_eq_padChunks (data : List Nat) :
    convert_memory data = (padChunks data).map hexEncode := by
  induction data using padChunks.induct with
  | case1 d h ih => rw [convert_memory, padChunks]; simp [h, ih]
  | case2 d h h0 => rw [convert_memory, padChunks]; simp [h, h0]
  | case3 d h h0 => rw [convert_memory, padChunks]; simp [h, h0]

theorem padChunks_length (data : List Nat) :
    (padChunks data).length = (data.length + 31) / 32 := by
  induction data using padChunks.induct with
  | case1 d h ih =>
      rw [padChunks]
      simp only [h, dif_pos, List.length_cons, ih, List.length_drop]
      omega
  | case2 d h h0 =>
      rw [padChunks, dif_neg h, if_pos h0, h0]
      simp
  | case3 d h h0 =>
      rw [padChunks, dif_neg h, if_neg h0]
      simp only [List.length_cons, List.length_nil]
      omega

theorem padChunks_chunk_length (data : List Nat) :
    ∀ c ∈ padChunks data, c.length = 32 := by
  induction data using padChunks.induct with
  | case1 d h ih =>
      rw [padChunks]
      simp only [h, dif_pos, List.mem_cons]
      rintro c (rfl | hc)
      · simp [List.length_take]
        omega
      · exact ih c hc
  | case2 d h h0 =>
      rw [padChunks, dif_neg h, if_pos h0]
      simp
  | case3 d h h0 =>
      rw [padChunks, dif_neg h, if_neg h0]
      simp only [List.mem_singleton]
      rintro c rfl
      simp only [List.length_append, List.length_replicate]
      omega

theorem padChunks_chunk_bytes (data : List Nat) (hb : ∀ b ∈ data, b < 256) :
    ∀ c ∈ padChunks data, ∀ b ∈ c, b < 256 := by
  induction data using padChunks.induct with
  | case1 d h ih =>
      rw [padChunks]
      simp only [h, dif_pos, List.mem_cons]
      rintro c (rfl | hc)
      · exact fun b hbm => hb b (List.mem_of_mem_take hbm)
      · exact ih (fun b hbm => hb b (List.mem_of_mem_drop hbm)) c hc
  | case2 d h h0 =>
      rw [padChunks, dif_neg h, if_pos h0]
      simp
  | case3 d h h0 =>
      rw [padChunks, dif_neg h, if_neg h0]
      simp only [List.mem_singleton]
      rintro c rfl b hbm
      rcases List.mem_append.mp hbm with hbd | hbr
      · exact hb b hbd
      · have := List.eq_of_mem_replicate hbr
        omega

theorem padChunks_flatten (data : List Nat) :
    (padChunks data).flatten =
      data ++ List.replicate (32 * ((data.length + 31) / 32) - data.length) 0 := by
  induction data using padChunks.induct with
  | case1 d h ih =>
      rw [padChunks]
      simp only [h, dif_pos, List.flatten_cons, ih, List.length_drop]
      rw [← List.append_assoc, List.take_append_drop]
      have harith : 32 * ((d.length - 32 + 31) / 32) - (d.length - 32) =
          32 * ((d.length + 31) / 32) - d.length := by omega
      rw [harith]
  | case2 d h h0 =>
      rw [padChunks, dif_neg h, if_pos h0]
      have hnil : d = [] := List.length_eq_zero.mp h0
      simp [hnil]
  | case3 d h h0 =>
      rw [padChunks, dif_neg h, if_neg h0]
      simp only [List.flatten_cons, List.flatten_nil, List.append_nil]
      have harith : 32 - d.length = 32 * ((d.length + 31) / 32) - d.length := by
        omega
      rw [harith]

theorem padChunks_getElem_full (data : List Nat) :
    ∀ i, 32 * (i + 1) ≤ data.length →
      (padChunks data)[i]? = some ((data.drop (32 * i)).take 32) := by
  induction data using padChunks.induct with
  | case1 d h ih =>
      intro i hi
      rw [padChunks]
      simp only [h, dif_pos]
      cases i with
      | zero => simp
      | succ j =>
          rw [List.getElem?_cons_succ]
          rw [ih j (by simp only [List.length_drop]; omega)]
          rw [List.drop_drop]
          have harith : 32 + 32 * j = 32 * (j + 1) := by omega
          rw [harith]
  | case2 d h h0 =>
      intro i hi
      omega
  | case3 d h h0 =>
      intro i hi
      omega

theorem padChunks_getLast_partial (data : List Nat)
    (hmod : data.length % 32 ≠ 0) :
    (padChunks data).getLast? =
      some (data.drop (32 * (data.length / 32)) ++
        List.replicate (32 - data.length % 32) 0) := by
  induction data using padChunks.induct with
  | case1 d h ih =>
      rw [padChunks]
      simp only [h, dif_pos, List.getLast?_cons]
      have hmod' : (d.drop 32).length % 32 ≠ 0 := by
        simp only [List.length_drop]
        omega
      rw [ih hmod']
      simp only [List.length_drop, Option.getD_some]
      rw [List.drop_drop]
      have h1 : 32 + 32 * ((d.length - 32) / 32) = 32 * (d.length / 32) := by
        omega
      have h2 : (d.length - 32) % 32 = d.length % 32 := by omega
      rw [h1, h2]
  | case2 d h h0 =>
      omega
  | case3 d h h0 =>
      rw [padChunks, dif_neg h, if_neg h0, List.getLast?_singleton]
      have h1 : 32 * (d.length / 32) = 0 := by omega
      have h2 : d.length % 32 = d.length := by omega
      rw [h1, h2]
      simp

/-! Selector tally step lemmas -/

theorem onCall_bytes_short (hist : Histogram) (data : List Nat)
    (h : data.length < 4) :
    onCall hist (CallInput.bytes data) = some (hist, none) := by
  simp only [onCall, CallInput.len]
  rw [if_neg (by omega)]

theorem onCall_bytes_long (hist : Histogram) (data : List Nat)
    (h : 4 ≤ data.length) :
    onCall hist (CallInput.bytes data) =
      some (incrementEntry hist (data.take 4, data.length - 4), none) := by
  simp only [onCall, CallInput.len]
  rw [if_pos h, if_pos h]
  simp [List.length_drop]

theorem onCall_sum (hist h' : Histogram) (e : CallInput)
    (o : Option CallOutcome) (hwf : e.wf)
    (hc : onCall hist e = some (h', o)) :
    sumCounts h' = sumCounts hist + (if 4 ≤ e.len then 1 else 0) := by
  cases e with
  | bytes data =>
      by_cases h4 : 4 ≤ data.length
      · rw [onCall_bytes_long hist data h4] at hc
        simp only [Option.some.injEq, Prod.mk.injEq] at hc
        rw [← hc.1, sumCounts_incrementEntry]
        simp [CallInput.len, h4]
      · rw [onCall_bytes_short hist data (by omega)] at hc
        simp only [Option.some.injEq, Prod.mk.injEq] at hc
        rw [← hc.1]
        simp [CallInput.len, h4]
  | sharedBuffer n r =>
      cases r with
      | none =>
          by_cases h4 : 4 ≤ n
          · exfalso
            simp only [onCall, CallInput.len] at hc
            rw [if_pos h4] at hc
            simp at hc
          · simp only [onCall, CallInput.len] at hc
            rw [if_neg h4] at hc
            simp only [Option.some.injEq, Prod.mk.injEq] at hc
            rw [← hc.1]
            simp [CallInput.len, h4]
      | some s =>
          have hs : s.length = n := hwf
          by_cases h4 : 4 ≤ n
          · simp only [onCall, CallInput.len] at hc
            rw [if_pos h4] at hc
            rw [if_pos (by omega : 4 ≤ s.length)] at hc
            simp only [Option.some.injEq, Prod.mk.injEq] at hc
            rw [← hc.1, sumCounts_incrementEntry]
            simp [CallInput.len, h4]
          · simp only [onCall, CallInput.len] at hc
            rw [if_neg h4] at hc
            simp only [Option.some.injEq, Prod.mk.injEq] at hc
            rw [← hc.1]
            simp [CallInput.len, h4]

theorem processCalls_sum (events : List CallInput) :
    ∀ h0 h1 : Histogram, (∀ e ∈ events, e.wf) →
      processCalls h0 events = some h1 →
      sumCounts h1 = sumCounts h0 +
        events.countP (fun e => decide (4 ≤ e.len)) := by
  induction events with
  | nil =>
      intro h0 h1 _ hp
      simp only [processCalls, Option.some.injEq] at hp
      rw [List.countP_nil, hp]
      simp
  | cons e rest ih =>
      intro h0 h1 hwf hp
      simp only [processCalls] at hp
      cases hstep : onCall h0 e with
      | none => rw [hstep] at hp; simp at hp
      | some p =>
          rw [hstep] at hp
          obtain ⟨h', o⟩ := p
          have hsum := onCall_sum h0 h' e o (hwf e (by simp)) hstep
          have := ih h' h1 (fun x hx => hwf x (by simp [hx])) hp
          rw [this, hsum, List.countP_cons]
          by_cases h4 : 4 ≤ e.len
          · simp [h4]
            omega
          · simp [h4]

theorem frameSum_toFrame (h : Histogram) : frameSum (toFrame h) = sumCounts h := by
  simp [frameSum, toFrame, sumCounts, List.map_map, Function.comp_def]

/-- Follows the spec's words (§4.2): the fixed table mapping each known
non-success outcome kind to its pair of strings, parity-style string first,
geth-style second, written independently of the code for comparison. -/
def specErrorTable (res : InstructionResult) (kind : TraceStyle) : Option String :=
  let pick (p g : String) : String := if kind.is_parity then p else g
  match res with
  | .Revert => some (pick "Reverted" "execution reverted")
  | .OutOfGas => some (pick "Out of gas" "out of gas")
  | .PrecompileOOG => some (pick "Out of gas" "out of gas")
  | .OutOfFunds =>
      some (pick "Insufficient balance for transfer"
        "insufficient balance for transfer")
  | .MemoryOOG => some (pick "Out of gas" "out of gas: out of memory")
  | .MemoryLimitOOG => some (pick "Out of gas" "out of gas: reach memory limit")
  | .InvalidOperandOOG => some (pick "Out of gas" "out of gas: invalid operand")
  | .OpcodeNotFound => some (pick "Bad instruction" "invalid opcode")
  | .StackOverflow => some "Out of stack"
  | .InvalidJump => some (pick "Bad jump destination" "invalid jump destination")
  | .PrecompileError => some (pick "Built-in failed" "precompiled failed")
  | .InvalidFEOpcode => some (pick "Bad instruction" "invalid opcode: INVALID")
  | .ReentrancySentryOOG =>
      some (pick "Out of gas" "out of gas: not enough gas for reentrancy sentry")
  | _ => none

/-! Claim theorems -/

/-- C1: the claim states `on_call` is total (never panics) and treats an
unresolvable shared-buffer range as empty input.  The code contradicts
this: for a shared-buffer input whose range has length 4 but whose
resolution fails, the fallback empty slice is then sliced as
`&input_bytes[..4]`, which panics (modelled as `none`). -/
theorem C1_unresolvable_shared_buffer_panics :
    onCall [] (CallInput.sharedBuffer 4 none) = none := rfl

/-- C2: for an owned byte buffer shorter than 4 bytes `on_call` leaves the
histogram unchanged; otherwise the selector is the first 4 bytes, the
calldata size the input length minus 4, and exactly that key's entry is
incremented by 1 (a zero-initialized entry being inserted first when the
key is absent), while every other key's count is unchanged. -/
theorem C2_owned_buffer_histogram_update (hist : Histogram) (data : List Nat) :
    (data.length < 4 → onCall hist (CallInput.bytes data) = some (hist, none)) ∧
    (4 ≤ data.length →
      onCall hist (CallInput.bytes data) =
        some (incrementEntry hist (data.take 4, data.length - 4), none) ∧
      histLookup (incrementEntry hist (data.take 4, data.length - 4))
          (data.take 4, data.length - 4) =
        some ((histLookup hist (data.take 4, data.length - 4)).getD 0 + 1) ∧
      ∀ k, k ≠ (data.take 4, data.length - 4) →
        histLookup (incrementEntry hist (data.take 4, data.length - 4)) k =
          histLookup hist k) := by
  constructor
  · intro h
    exact onCall_bytes_short hist data h
  · intro h
    refine ⟨onCall_bytes_long hist data h,
      histLookup_incrementEntry_self _ _, ?_⟩
    intro k hk
    exact histLookup_incrementEntry_other _ _ _ hk

/-- Witness for C2 at the concrete 5-byte input `[1,2,3,4,5]` over the
empty histogram: the entry keyed by the first four bytes and calldata size
1 is created with count 1. -/
theorem C2_owned_buffer_histogram_update_witness :
    onCall [] (CallInput.bytes [1, 2, 3, 4, 5]) =
      some (incrementEntry [] ([1, 2, 3, 4], 1), none) ∧
    histLookup (incrementEntry [] ([1, 2, 3, 4], 1)) ([1, 2, 3, 4], 1) =
      some 1 := by
  have h := (C2_owned_buffer_histogram_update [] [1, 2, 3, 4, 5]).2 (by decide)
  exact ⟨h.1, h.2.1⟩

/-- C4: `fmt_error_msg` returns absence exactly on success codes, agrees
with the spec's fixed string table on every tabulated non-success outcome
kind for both styles (in particular Revert and StackOverflow), and falls
back to the `Debug` rendering for any non-success kind not in the table,
so it is total over all outcome values. -/
theorem C4_fmt_error_msg_table (res : InstructionResult) (kind : TraceStyle) :
    (fmt_error_msg res kind = none ↔ res.is_ok = true) ∧
    (inErrorTable res = true → fmt_error_msg res kind = specErrorTable res kind) ∧
    (res.is_ok = false → inErrorTable res = false →
      fmt_error_msg res kind = some res.debugStr) ∧
    fmt_error_msg InstructionResult.Revert TraceStyle.Parity = some "Reverted" ∧
    fmt_error_msg InstructionResult.Revert TraceStyle.Geth =
      some "execution reverted" ∧
    fmt_error_msg InstructionResult.StackOverflow kind = some "Out of stack" := by
  cases res <;> cases kind <;> decide

/-- Witness for C4 at the untabulated non-success outcome `CallTooDeep` in
geth style: the `Debug` fallback rendering is returned. -/
theorem C4_fmt_error_msg_table_witness :
    fmt_error_msg InstructionResult.CallTooDeep TraceStyle.Geth =
      some "CallTooDeep" := by
  have h := C4_fmt_error_msg_table InstructionResult.CallTooDeep TraceStyle.Geth
  exact h.2.2.1 (by decide) (by decide)

/-- C6: `gas_used` equals spent minus `min(refundAvailable, spent / q)`
with floor division, where `q` is 5 from the London hardfork onwards and 2
before; the subtraction never underflows since the effective refund is at
most `spent`. -/
theorem C6_gas_used_refund (spec : SpecId) (spent refunded : Nat) :
    gas_used spec spent refunded =
      spent - min refunded
        (spent / (if SpecId.is_enabled_in spec SpecId.LONDON then 5 else 2)) ∧
    min refunded
        (spent / (if SpecId.is_enabled_in spec SpecId.LONDON then 5 else 2)) ≤
      spent ∧
    gas_used spec spent refunded +
      min refunded
        (spent / (if SpecId.is_enabled_in spec SpecId.LONDON then 5 else 2)) =
      spent ∧
    (SpecId.is_enabled_in spec SpecId.LONDON = true ↔
      SpecId.LONDON.toNat ≤ spec.toNat) := by
  have hle : min refunded
      (spent / (if SpecId.is_enabled_in spec SpecId.LONDON then 5 else 2)) ≤
        spent :=
    le_trans (min_le_right _ _) (Nat.div_le_self _ _)
  have h1 : gas_used spec spent refunded =
      spent - min refunded
        (spent / (if SpecId.is_enabled_in spec SpecId.LONDON then 5 else 2)) :=
    rfl
  refine ⟨h1, hle, by rw [h1]; omega, ?_⟩
  simp [SpecId.is_enabled_in]

/-- Witness for C6 at London (quotient 5) and Berlin (quotient 2) with
spent 100 and refundable 30. -/
theorem C6_gas_used_refund_witness :
    gas_used SpecId.LONDON 100 30 = 80 ∧ gas_used SpecId.BERLIN 100 30 = 70 := by
  constructor
  · rw [(C6_gas_used_refund SpecId.LONDON 100 30).1]
    decide
  · rw [(C6_gas_used_refund SpecId.BERLIN 100 30).1]
    decide

/-- C3: for every well-formed finite sequence of call events fed to a
freshly created tally that completes without panicking, the sum of all
counts in the produced frame equals the number of events whose input
length was at least 4. -/
theorem C3_report_total_counts (events : List CallInput) (hist : Histogram)
    (hwf : ∀ e ∈ events, e.wf)
    (hrun : processCalls [] events = some hist) :
    frameSum (toFrame hist) =
      events.countP (fun e => decide (4 ≤ e.len)) := by
  rw [frameSum_toFrame]
  have := processCalls_sum events [] hist hwf hrun
  simpa [sumCounts] using this

/-- Witness for C3 on three concrete events, two of which carry at least
4 bytes of input (one of them twice the same fingerprint). -/
theorem C3_report_total_counts_witness :
    frameSum (toFrame [(([1, 2, 3, 4], 0), 2)]) =
      List.countP (fun e => decide (4 ≤ e.len))
        [CallInput.bytes [1, 2, 3, 4], CallInput.sharedBuffer 2 none,
          CallInput.bytes [1, 2, 3, 4]] := by
  apply C3_report_total_counts
  · decide
  · decide

/-- C5: `convert_memory` yields exactly ceil(L/32) strings of exactly 64
lowercase hex characters each; the i-th full 32-byte word of the input is
hex-encoded in order, a trailing partial chunk is right-padded with zero
bytes to 32 before encoding and appended last, and empty input yields the
empty sequence. -/
theorem C5_convert_memory_shape (data : List Nat) (hb : ∀ b ∈ data, b < 256) :
    (convert_memory data).length = (data.length + 31) / 32 ∧
    (∀ s ∈ convert_memory data, s.length = 64 ∧ ∀ c ∈ s, isLowerHexChar c) ∧
    (∀ i, 32 * (i + 1) ≤ data.length →
      (convert_memory data)[i]? =
        some (hexEncode ((data.drop (32 * i)).take 32))) ∧
    (data.length % 32 ≠ 0 →
      (convert_memory data).getLast? =
        some (hexEncode (data.drop (32 * (data.length / 32)) ++
          List.replicate (32 - data.length % 32) 0))) ∧
    convert_memory [] = [] := by
  rw [convert_memory_eq_padChunks]
  refine ⟨?_, ?_, ?_, ?_, by rw [convert_memory]; simp⟩
  · rw [List.length_map, padChunks_length]
  · intro s hs
    obtain ⟨ch, hchm, rfl⟩ := List.mem_map.mp hs
    constructor
    · rw [hexEncode_length, padChunks_chunk_length data ch hchm]
    · exact hexEncode_chars ch (padChunks_chunk_bytes data hb ch hchm)
  · intro i hi
    rw [List.getElem?_map, padChunks_getElem_full data i hi]
    rfl
  · intro hmod
    rw [List.getLast?_map, padChunks_getLast_partial data hmod]
    rfl

/-- Witness for C5 at a concrete 33-byte input: two chunks of 64 hex
characters, the second zero-padded. -/
theorem C5_convert_memory_shape_witness :
    (convert_memory (List.replicate 33 255)).length = 2 ∧
    convert_memory [] = [] := by
  have h := C5_convert_memory_shape (List.replicate 33 255)
    (fun b hbm => by rw [List.eq_of_mem_replicate hbm]; omega)
  exact ⟨h.1, h.2.2.2.2⟩

/-- Hex-decoding the concatenated encodings of a chunk list recovers the
concatenated chunks. -/
theorem hexDecode_flatten_map (l : List (List Nat))
    (hb : ∀ c ∈ l, ∀ b ∈ c, b < 256) :
    hexDecode (List.map hexEncode l).flatten = l.flatten := by
  induction l with
  | nil => simp [hexDecode]
  | cons c rest ih =>
      simp only [List.map_cons, List.flatten_cons]
      rw [hexDecode_hexEncode_append c _ (hb c (by simp)),
        ih (fun x hx => hb x (by simp [hx]))]

/-- C10: hex-decoding the concatenation of `convert_memory`'s output gives
a byte sequence of length 32·ceil(L/32) whose first L bytes are exactly
the input — the zero-padding only appends trailing bytes. -/
theorem C10_chunk_round_trip (data : List Nat) (hb : ∀ b ∈ data, b < 256) :
    (hexDecode (convert_memory data).flatten).length =
      32 * ((data.length + 31) / 32) ∧
    (hexDecode (convert_memory data).flatten).take data.length = data := by
  rw [convert_memory_eq_padChunks,
    hexDecode_flatten_map (padChunks data) (padChunks_chunk_bytes data hb),
    padChunks_flatten]
  constructor
  · simp only [List.length_append, List.length_replicate]
    omega
  · have := List.take_left data
      (List.replicate (32 * ((data.length + 31) / 32) - data.length) 0)
    exact this

/-- Witness for C10 on the concrete 3-byte input `[1, 2, 3]`. -/
theorem C10_chunk_round_trip_witness :
    (hexDecode (convert_memory [1, 2, 3]).flatten).length = 32 ∧
    (hexDecode (convert_memory [1, 2, 3]).flatten).take 3 = [1, 2, 3] := by
  have h := C10_chunk_round_trip [1, 2, 3] (by decide)
  exact ⟨h.1, h.2⟩

/-- C7: `maybe_revert_reason` returns absence when the external decoder
recognizes no shape or the decoded reason is empty; otherwise it returns
the decoded string exactly — for an `Error(string)`-style revert the
embedded string itself (never the rendered display message), for other
structured contract-error shapes their rendered description, for a raw
string payload the string verbatim. -/
theorem C7_maybe_revert_reason_cases
    (decode : List Nat → Option GenericRevertReason) (output : List Nat) :
    (decode output = none → maybe_revert_reason decode output = none) ∧
    (∀ r, decode output =
        some (GenericRevertReason.ContractError (ContractError.Revert r)) →
      maybe_revert_reason decode output =
        if r.isEmpty then none else some r) ∧
    (∀ d, decode output =
        some (GenericRevertReason.ContractError (ContractError.otherError d)) →
      maybe_revert_reason decode output =
        if d.isEmpty then none else some d) ∧
    (∀ s, decode output = some (GenericRevertReason.RawString s) →
      maybe_revert_reason decode output =
        if s.isEmpty then none else some s) := by
  refine ⟨?_, ?_, ?_, ?_⟩
  · intro h
    simp [maybe_revert_reason, h]
  · intro r h
    simp [maybe_revert_reason, h]
  · intro d h
    simp [maybe_revert_reason, h, ContractError.toText]
  · intro s h
    simp [maybe_revert_reason, h]

/-- Witness for C7: a structured `Error(string)` revert with message
`"my revert"` decodes to exactly that string, and an empty raw string
decodes to absence. -/
theorem C7_maybe_revert_reason_cases_witness :
    maybe_revert_reason (fun _ => some (GenericRevertReason.ContractError
      (ContractError.Revert "my revert"))) [] = some "my revert" ∧
    maybe_revert_reason (fun _ => some (GenericRevertReason.RawString "")) [] =
      none := by
  constructor
  · rw [(C7_maybe_revert_reason_cases (fun _ => some
      (GenericRevertReason.ContractError (ContractError.Revert "my revert")))
      []).2.1 "my revert" rfl]
    decide
  · rw [(C7_maybe_revert_reason_cases (fun _ => some
      (GenericRevertReason.RawString "")) []).2.2.2 "" rfl]
    decide

/-- C8: `load_account_code` returns inline code without touching the data
source when present; otherwise absence when the code hash is the canonical
empty-code hash; otherwise it queries the data source by hash, turning a
lookup failure into absence and a success into the retrieved code. -/
theorem C8_load_account_code_cases
    (code_by_hash : List Nat → Except String Bytecode) (acc : AccountInfo) :
    (∀ c, acc.code = some c →
      ∀ db2 : List Nat → Except String Bytecode,
        load_account_code db2 acc = some c.original_bytes) ∧
    (acc.code = none → acc.code_hash = KECCAK_EMPTY →
      load_account_code code_by_hash acc = none) ∧
    (acc.code = none → acc.code_hash ≠ KECCAK_EMPTY →
      (∀ e, code_by_hash acc.code_hash = Except.error e →
        load_account_code code_by_hash acc = none) ∧
      (∀ bc, code_by_hash acc.code_hash = Except.ok bc →
        load_account_code code_by_hash acc = some bc.original_bytes)) := by
  refine ⟨?_, ?_, ?_⟩
  · intro c hc db2
    simp [load_account_code, hc]
  · intro hc hh
    simp [load_account_code, hc, hh]
  · intro hc hh
    constructor
    · intro e he
      simp [load_account_code, hc, hh, he, Except.toOption]
    · intro bc hbc
      simp [load_account_code, hc, hh, hbc, Except.toOption]

/-- Witness for C8: an account with no inline code and a non-empty code
hash retrieves the code from the data source. -/
theorem C8_load_account_code_cases_witness :
    load_account_code (fun _ => Except.ok (Bytecode.mk [7]))
      (AccountInfo.mk none [1]) = some [7] := by
  have h := (C8_load_account_code_cases (fun _ => Except.ok (Bytecode.mk [7]))
    (AccountInfo.mk none [1])).2.2 rfl (by decide)
  exact h.2 (Bytecode.mk [7]) rfl

/-- A key whose lookup succeeds is among the histogram's keys. -/
theorem histLookup_some_mem (h : Histogram) (k : SelKey) (c : Nat)
    (hl : histLookup h k = some c) : k ∈ h.map (fun e => e.1) := by
  induction h with
  | nil => simp [histLookup] at hl
  | cons e rest ih =>
      obtain ⟨k0, c0⟩ := e
      simp only [histLookup] at hl
      by_cases hk : k0 = k
      · simp [hk]
      · rw [if_neg hk] at hl
        simp [ih hl]

/-- Frame lookup at a formatted key agrees with histogram lookup, for
well-formed keys. -/
theorem frameLookup_toFrame (hist : Histogram)
    (hwf : ∀ e ∈ hist, SelKeyWF e.1) (k : SelKey) (hk : SelKeyWF k) :
    frameLookup (toFrame hist) (keyChars k) = histLookup hist k := by
  induction hist with
  | nil => simp [toFrame, frameLookup, histLookup]
  | cons e rest ih =>
      obtain ⟨k0, c0⟩ := e
      have hk0 : SelKeyWF k0 := hwf (k0, c0) (by simp)
      simp only [toFrame, List.map_cons, frameLookup, histLookup]
      by_cases heq : k0 = k
      · rw [if_pos (by rw [heq]), if_pos heq]
      · rw [if_neg (fun hc => heq (keyChars_inj hk0 hk hc)), if_neg heq]
        exact ih (fun x hx => hwf x (by simp [hx]))

/-- A successful frame lookup comes from some histogram entry. -/
theorem frameLookup_toFrame_exists (hist : Histogram) (s : List Char) (c : Nat)
    (hf : frameLookup (toFrame hist) s = some c) :
    ∃ k, keyChars k = s ∧ histLookup hist k = some c := by
  induction hist with
  | nil => simp [toFrame, frameLookup] at hf
  | cons e rest ih =>
      obtain ⟨k0, c0⟩ := e
      simp only [toFrame, List.map_cons, frameLookup] at hf
      by_cases hks : keyChars k0 = s
      · rw [if_pos hks] at hf
        refine ⟨k0, hks, ?_⟩
        simp only [histLookup, if_pos rfl]
        exact hf
      · rw [if_neg hks] at hf
        obtain ⟨k, hk1, hk2⟩ := ih hf
        have hne : k0 ≠ k := fun hc => hks (by rw [hc, hk1])
        refine ⟨k, hk1, ?_⟩
        simp only [histLookup, if_neg hne]
        exact hk2

/-- C9: converting a histogram (unique, well-formed keys as the Rust types
guarantee) to a frame is lossless and invertible: every entry maps to the
key `"0x" + 8 lowercase hex digits + "-" + decimal size` with the same
count, distinct entries give distinct keys, and every frame entry comes
from exactly one histogram entry with the same count. -/
theorem C9_frame_lossless (hist : Histogram)
    (hwf : ∀ e ∈ hist, SelKeyWF e.1)
    (hnd : (hist.map (fun e => e.1)).Nodup) :
    toFrame hist = hist.map (fun e => (keyChars e.1, e.2)) ∧
    (∀ k : SelKey, SelKeyWF k →
      keyChars k = '0' :: 'x' :: (hexEncode k.1 ++ '-' :: decimalChars k.2) ∧
      (hexEncode k.1).length = 8 ∧ (∀ ch ∈ hexEncode k.1, isLowerHexChar ch)) ∧
    ((toFrame hist).map (fun e => e.1)).Nodup ∧
    (∀ k c, histLookup hist k = some c →
      frameLookup (toFrame hist) (keyChars k) = some c) ∧
    (∀ s c, frameLookup (toFrame hist) s = some c →
      ∃! k, histLookup hist k = some c ∧ keyChars k = s) := by
  refine ⟨rfl, ?_, ?_, ?_, ?_⟩
  · intro k hk
    refine ⟨rfl, ?_, hexEncode_chars k.1 hk.2⟩
    rw [hexEncode_length, hk.1]
  · have : (toFrame hist).map (fun e => e.1) =
        (hist.map (fun e => e.1)).map keyChars := by
      simp [toFrame, List.map_map, Function.comp_def]
    rw [this]
    refine List.Nodup.map_on ?_ hnd
    intro x hx y hy hxy
    obtain ⟨ex, hex, hex1⟩ := List.mem_map.mp hx
    obtain ⟨ey, hey, hey1⟩ := List.mem_map.mp hy
    exact keyChars_inj (hex1 ▸ hwf ex hex) (hey1 ▸ hwf ey hey) hxy
  · intro k c hl
    have hkmem := histLookup_some_mem hist k c hl
    obtain ⟨e, he, he1⟩ := List.mem_map.mp hkmem
    have hk : SelKeyWF k := he1 ▸ hwf e he
    rw [frameLookup_toFrame hist hwf k hk]
    exact hl
  · intro s c hf
    obtain ⟨k, hk1, hk2⟩ := frameLookup_toFrame_exists hist s c hf
    have hkwf : SelKeyWF k := by
      obtain ⟨e, he, he1⟩ :=
        List.mem_map.mp (histLookup_some_mem hist k c hk2)
      exact he1 ▸ hwf e he
    refine ⟨k, ⟨hk2, hk1⟩, ?_⟩
    intro y hy
    have hywf : SelKeyWF y := by
      obtain ⟨e, he, he1⟩ :=
        List.mem_map.mp (histLookup_some_mem hist y c hy.1)
      exact he1 ▸ hwf e he
    exact keyChars_inj hywf hkwf (by rw [hy.2, hk1])

/-- Witness for C9 on a concrete two-entry histogram matching the spec's
report example. -/
theorem C9_frame_lossless_witness :
    frameLookup (toFrame [(([0x27, 0xdc, 0x29, 0x7e], 128), 2),
        (([0x38, 0xcc, 0x48, 0x31], 0), 1)])
      (keyChars ([0x27, 0xdc, 0x29, 0x7e], 128)) = some 2 := by
  have h := C9_frame_lossless
    [(([0x27, 0xdc, 0x29, 0x7e], 128), 2), (([0x38, 0xcc, 0x48, 0x31], 0), 1)]
    (by decide) (by decide)
  exact h.2.2.2.1 ([0x27, 0xdc, 0x29, 0x7e], 128) 2 (by decide)

end RevmInspectors
